import Mathlib

/-!
Verification of the group-convolution integral-equation solver
(`integral_convolve.py`).

The lattice/distance model is exact, so it is embedded over `ℚ`
(coordinates of lattice points and toroidal distances are rational);
real-valued kernels and forcing functions live over `ℝ`.  The piecewise
function inside `g` raises outside `[0,1]`; it is embedded as an
`Option`-valued function, `none` standing for the raised exception.
-/

namespace IntegralConvolve

/-- Kernel from the source: `exp_kernel(distance) = np.exp(-distance)`. -/
noncomputable def exp_kernel (distance : ℝ) : ℝ := Real.exp (-distance)

/-- Entry `(i,j)` of the kernel matrix `K`, from the source `matrix_entry`:
grid points `x1 = (i//n)/n`, `y1 = (i%n)/n` (likewise for `j`), wrap-around
Manhattan distance `sum(where(diff < 1/2, diff, 1 - diff))`, entry
`(1/n^2) * kernel_func(distance)`. -/
noncomputable def matrix_entry (i j n : ℕ) (kernel_func : ℝ → ℝ) : ℝ :=
  let x1 : ℚ := ((i / n : ℕ) : ℚ) / (n : ℚ)
  let y1 : ℚ := ((i % n : ℕ) : ℚ) / (n : ℚ)
  let x2 : ℚ := ((j / n : ℕ) : ℚ) / (n : ℚ)
  let y2 : ℚ := ((j % n : ℕ) : ℚ) / (n : ℚ)
  let distance : ℚ :=
    (if |x1 - x2| < 1 / 2 then |x1 - x2| else 1 - |x1 - x2|) +
      (if |y1 - y2| < 1 / 2 then |y1 - y2| else 1 - |y1 - y2|)
  1 / (n : ℝ) ^ 2 * kernel_func ((distance : ℚ) : ℝ)

/-- The source `cross_correlation(n, kernel_func, lamb)`: the full matrix
`I + lamb*K` of size `n^2 × n^2`, `result[i,j] = lamb*matrix_entry(i,j,n,kernel)`
with `1` added on the diagonal. -/
noncomputable def cross_correlation (n : ℕ) (kernel_func : ℝ → ℝ) (lamb : ℝ) :
    Matrix (Fin (n ^ 2)) (Fin (n ^ 2)) ℝ :=
  Matrix.of fun i j =>
    lamb * matrix_entry i.val j.val n kernel_func + if i = j then 1 else 0

/-- Spec §4.1: `point_of_index(i, n) = ((i div n)/n, (i mod n)/n)`. -/
def point_of_index (i n : ℕ) : ℚ × ℚ :=
  (((i / n : ℕ) : ℚ) / (n : ℚ), ((i % n : ℕ) : ℚ) / (n : ℚ))

/-- Per-axis wrapped difference on the unit torus: `d` if `d < 1/2` else `1 - d`. -/
def wrap (d : ℚ) : ℚ := if d < 1 / 2 then d else 1 - d

/-- Spec §4.1: toroidal (wrap-around) Manhattan distance, the per-axis wrapped
absolute difference summed over both axes. -/
def toroidal_distance (p q : ℚ × ℚ) : ℚ := wrap |p.1 - q.1| + wrap |p.2 - q.2|

lemma matrix_entry_eq (i j n : ℕ) (K : ℝ → ℝ) :
    matrix_entry i j n K =
      1 / (n : ℝ) ^ 2 *
        K ((toroidal_distance (point_of_index i n) (point_of_index j n) : ℚ) : ℝ) := rfl

lemma toroidal_distance_comm (p q : ℚ × ℚ) :
    toroidal_distance p q = toroidal_distance q p := by
  unfold toroidal_distance
  rw [abs_sub_comm p.1 q.1, abs_sub_comm p.2 q.2]

lemma toroidal_distance_self (p : ℚ × ℚ) : toroidal_distance p p = 0 := by
  unfold toroidal_distance wrap
  norm_num

lemma matrix_entry_symm (i j n : ℕ) (K : ℝ → ℝ) :
    matrix_entry i j n K = matrix_entry j i n K := by
  rw [matrix_entry_eq, matrix_entry_eq, toroidal_distance_comm]

/-- C5: the toroidal Manhattan distance on points of `[0,1)²` is symmetric,
vanishes on the diagonal, and always lies in `[0,1]`. -/
theorem toroidal_distance_props (p q : ℚ × ℚ)
    (hp : 0 ≤ p.1 ∧ p.1 < 1 ∧ 0 ≤ p.2 ∧ p.2 < 1)
    (hq : 0 ≤ q.1 ∧ q.1 < 1 ∧ 0 ≤ q.2 ∧ q.2 < 1) :
    toroidal_distance p q = toroidal_distance q p ∧
      toroidal_distance p p = 0 ∧
      0 ≤ toroidal_distance p q ∧ toroidal_distance p q ≤ 1 := by
  obtain ⟨hp1, hp2, hp3, hp4⟩ := hp
  obtain ⟨hq1, hq2, hq3, hq4⟩ := hq
  have a1 := abs_nonneg (p.1 - q.1)
  have a2 := abs_nonneg (p.2 - q.2)
  have b1 : |p.1 - q.1| ≤ 1 := by rw [abs_le]; constructor <;> linarith
  have b2 : |p.2 - q.2| ≤ 1 := by rw [abs_le]; constructor <;> linarith
  refine ⟨toroidal_distance_comm p q, toroidal_distance_self p, ?_, ?_⟩
  · unfold toroidal_distance wrap
    split_ifs <;> push_neg at * <;> linarith
  · unfold toroidal_distance wrap
    split_ifs <;> push_neg at * <;> linarith

/-- Witness for C5 at `p = (0, 1/4)`, `q = (1/2, 3/4)`. -/
theorem toroidal_distance_props_witness :
    toroidal_distance ((0 : ℚ), (1 / 4 : ℚ)) ((1 / 2 : ℚ), (3 / 4 : ℚ)) =
        toroidal_distance ((1 / 2 : ℚ), (3 / 4 : ℚ)) ((0 : ℚ), (1 / 4 : ℚ)) ∧
      toroidal_distance ((0 : ℚ), (1 / 4 : ℚ)) ((0 : ℚ), (1 / 4 : ℚ)) = 0 ∧
      0 ≤ toroidal_distance ((0 : ℚ), (1 / 4 : ℚ)) ((1 / 2 : ℚ), (3 / 4 : ℚ)) ∧
      toroidal_distance ((0 : ℚ), (1 / 4 : ℚ)) ((1 / 2 : ℚ), (3 / 4 : ℚ)) ≤ 1 :=
  toroidal_distance_props ((0 : ℚ), (1 / 4 : ℚ)) ((1 / 2 : ℚ), (3 / 4 : ℚ))
    (by refine ⟨by norm_num, by norm_num, by norm_num, by norm_num⟩)
    (by refine ⟨by norm_num, by norm_num, by norm_num, by norm_num⟩)

/-- C7: the matrix built by `cross_correlation` is symmetric in its two indices,
for every resolution, kernel and scalar. -/
theorem cross_correlation_symmetric (n : ℕ) (hn : 1 ≤ n) (K : ℝ → ℝ) (lamb : ℝ)
    (i j : Fin (n ^ 2)) :
    cross_correlation n K lamb i j = cross_correlation n K lamb j i := by
  unfold cross_correlation
  rw [Matrix.of_apply, Matrix.of_apply, matrix_entry_symm]
  by_cases h : i = j
  · subst h; rfl
  · rw [if_neg h, if_neg (Ne.symm h)]

/-- Witness for C7 at `n = 2`, the identity kernel, `λ = 1`, indices `0` and `1`. -/
theorem cross_correlation_symmetric_witness :
    cross_correlation 2 (fun x => x) 1 ⟨0, by norm_num⟩ ⟨1, by norm_num⟩ =
      cross_correlation 2 (fun x => x) 1 ⟨1, by norm_num⟩ ⟨0, by norm_num⟩ :=
  cross_correlation_symmetric 2 (by norm_num) (fun x => x) 1
    ⟨0, by norm_num⟩ ⟨1, by norm_num⟩

/-- C1: every entry of the operator matrix equals
`(λ/n²)·kernel(toroidal_distance(point(i,n), point(j,n)))`, with `1` added
exactly on the diagonal. -/
theorem operator_entry_formula (n : ℕ) (hn : 1 ≤ n) (K : ℝ → ℝ) (lamb : ℝ)
    (i j : Fin (n ^ 2)) :
    cross_correlation n K lamb i j =
      lamb / (n : ℝ) ^ 2 *
          K ((toroidal_distance (point_of_index i.val n) (point_of_index j.val n) : ℚ) : ℝ) +
        if i = j then 1 else 0 := by
  unfold cross_correlation
  rw [Matrix.of_apply, matrix_entry_eq]
  ring_nf

/-- Witness for C1 at `n = 2`, constant kernel `1`, `λ = 1`, indices `0 ≠ 1`:
the entry evaluates to `1/4`. -/
theorem operator_entry_formula_witness :
    cross_correlation 2 (fun _ => (1 : ℝ)) 1 ⟨0, by norm_num⟩ ⟨1, by norm_num⟩ = 1 / 4 := by
  have h := operator_entry_formula 2 (by norm_num) (fun _ => (1 : ℝ)) 1
    ⟨0, by norm_num⟩ ⟨1, by norm_num⟩
  rw [h]
  norm_num [Fin.ext_iff]

/-- C8: with `n = 4`, `λ = 1` and the exponential kernel, `A[0,0] = 1 + exp 0/16
= 1.0625` and `A[0,1] = exp(-1/4)/16`; with `λ = 0` the matrix is exactly the
identity for every resolution and kernel. -/
theorem concrete_scenario_and_identity :
    cross_correlation 4 exp_kernel 1 ⟨0, by norm_num⟩ ⟨0, by norm_num⟩ =
        1 + Real.exp 0 / 16 ∧
      (1 + Real.exp 0 / 16 : ℝ) = 1.0625 ∧
      cross_correlation 4 exp_kernel 1 ⟨0, by norm_num⟩ ⟨1, by norm_num⟩ =
        Real.exp (-(1 / 4)) / 16 ∧
      ∀ (n : ℕ) (K : ℝ → ℝ), cross_correlation n K 0 = 1 := by
  refine ⟨?_, ?_, ?_, ?_⟩
  · unfold cross_correlation
    rw [Matrix.of_apply, matrix_entry_eq, toroidal_distance_self]
    rw [if_pos rfl]
    norm_num [exp_kernel]
  · rw [Real.exp_zero]; norm_num
  · unfold cross_correlation
    rw [Matrix.of_apply, matrix_entry_eq]
    have hd : toroidal_distance (point_of_index 0 4) (point_of_index 1 4) = 1 / 4 := by
      have h1 : point_of_index 0 4 = ((0 : ℚ), (0 : ℚ)) := by
        unfold point_of_index; norm_num
      have h2 : point_of_index 1 4 = ((0 : ℚ), (1 / 4 : ℚ)) := by
        unfold point_of_index; norm_num
      rw [h1, h2]
      unfold toroidal_distance wrap
      norm_num [abs_of_nonpos]
    rw [hd, if_neg (by simp [Fin.ext_iff])]
    norm_num [exp_kernel]
    ring
  · intro n K
    ext i j
    simp [cross_correlation, Matrix.one_apply]

/-- Target function from the source: `f(x, y) = (x - x**3)*(y - y**3)`. -/
def f (x y : ℝ) : ℝ := (x - x ^ 3) * (y - y ^ 3)

/-- The analytic branch of the inner piecewise function of `g` on `[0, 1/2)`. -/
noncomputable def func_branch1 (x : ℝ) : ℝ :=
  -3 * Real.exp (-x) - 2 * x * (5 + x ^ 2) +
    (1 + 2 * x) * (21 + 4 * x * (1 + x)) / (4 * Real.exp (1 / 2))

/-- The analytic branch of the inner piecewise function of `g` on `[1/2, 1]`. -/
noncomputable def func_branch2 (x : ℝ) : ℝ :=
  9 * Real.exp (-1 + x) - 2 * x * (5 + x ^ 2) +
    (-1 + 2 * x) * (21 + 4 * x * (-1 + x)) / (4 * Real.exp (1 / 2))

/-- The inner piecewise function `func` of the source `g`: branch 1 on
`0 ≤ x < 0.5`, branch 2 on `0.5 ≤ x ≤ 1`, and otherwise it raises
(`none` models the raised exception). -/
noncomputable def func (x : ℝ) : Option ℝ :=
  if 0 ≤ x ∧ x < 1 / 2 then some (func_branch1 x)
  else if 1 / 2 ≤ x ∧ x ≤ 1 then some (func_branch2 x)
  else none

/-- The total closed form the piecewise function takes on `[0, 1]`. -/
noncomputable def hval (x : ℝ) : ℝ :=
  if x < 1 / 2 then func_branch1 x else func_branch2 x

/-- The source `g(x, y, lamb) = f(x, y) + lamb*vfunc(x)*vfunc(y)`; the raised
exception of `func` propagates. -/
noncomputable def g (x y lamb : ℝ) : Option ℝ :=
  (func x).bind fun hx => (func y).bind fun hy => some (f x y + lamb * hx * hy)

/-- The source `discretized_f(N)`: values `f(i/N, j/N)` appended row by row. -/
noncomputable def discretized_f (N : ℕ) : List ℝ :=
  ((List.range N).map fun (i : ℕ) =>
    (List.range N).map fun (j : ℕ) => f ((i : ℝ) / N) ((j : ℝ) / N)).flatten

/-- The source `discretized_g(lamb, N)`: values `g(i/N, j/N, lamb)` appended row
by row; a raised exception aborts the whole computation (`none`). -/
noncomputable def discretized_g (lamb : ℝ) (N : ℕ) : Option (List ℝ) :=
  List.flatten <$>
    (List.range N).mapM fun (i : ℕ) =>
      (List.range N).mapM fun (j : ℕ) => g ((i : ℝ) / N) ((j : ℝ) / N) lamb

lemma func_eq_some_of_mem (x : ℝ) (h0 : 0 ≤ x) (h1 : x ≤ 1) :
    func x = some (hval x) := by
  unfold func hval
  by_cases hx : x < 1 / 2
  · rw [if_pos ⟨h0, hx⟩, if_pos hx]
  · rw [if_neg (fun h => hx h.2), if_pos ⟨le_of_not_lt hx, h1⟩, if_neg hx]

/-- C3: the piecewise function inside `g` evaluates to its closed form exactly
on `[0,1]`, and raises if and only if the input lies outside `[0,1]`. -/
theorem func_domain_characterization (x : ℝ) :
    func x = (if 0 ≤ x ∧ x ≤ 1 then some (hval x) else none) ∧
      (func x = none ↔ x < 0 ∨ 1 < x) := by
  have key : func x = (if 0 ≤ x ∧ x ≤ 1 then some (hval x) else none) := by
    by_cases h : 0 ≤ x ∧ x ≤ 1
    · rw [if_pos h, func_eq_some_of_mem x h.1 h.2]
    · rw [if_neg h]
      unfold func
      push_neg at h
      have c1 : ¬(0 ≤ x ∧ x < 1 / 2) := by
        rintro ⟨h1, h2⟩; have := h h1; linarith
      have c2 : ¬(1 / 2 ≤ x ∧ x ≤ 1) := by
        rintro ⟨h1, h2⟩; have := h (by linarith); linarith
      rw [if_neg c1, if_neg c2]
  refine ⟨key, ?_⟩
  rw [key]
  by_cases h : 0 ≤ x ∧ x ≤ 1
  · rw [if_pos h]
    exact iff_of_false (by simp) (by push_neg; exact ⟨h.1, h.2⟩)
  · rw [if_neg h]
    push_neg at h
    refine iff_of_true rfl ?_
    rcases le_or_lt 0 x with h0 | h0
    · exact Or.inr (h h0)
    · exact Or.inl h0

lemma flatten_map_range_get {α : Type*} :
    ∀ (i : ℕ) (F : ℕ → ℕ → α) (m n j : ℕ), i < m → j < n →
      (((List.range m).map fun a => (List.range n).map (F a)).flatten)[i * n + j]? =
        some (F i j) := by
  intro i
  induction i with
  | zero =>
    intro F m n j him hjn
    obtain ⟨m', rfl⟩ : ∃ m', m = m' + 1 := ⟨m - 1, by omega⟩
    rw [List.range_succ_eq_map]
    simp only [List.map_cons, List.flatten_cons]
    rw [Nat.zero_mul, Nat.zero_add,
      List.getElem?_append_left (by simpa using hjn)]
    simp [hjn]
  | succ i ih =>
    intro F m n j him hjn
    obtain ⟨m', rfl⟩ : ∃ m', m = m' + 1 := ⟨m - 1, by omega⟩
    rw [List.range_succ_eq_map]
    simp only [List.map_cons, List.flatten_cons, List.map_map]
    rw [List.getElem?_append_right (by simp; nlinarith)]
    have hidx : (i + 1) * n + j - ((List.range n).map (F 0)).length = i * n + j := by
      simp; ring_nf; omega
    rw [hidx]
    have hcomp :
        ((fun a => (List.range n).map (F a)) ∘ Nat.succ) =
          fun a => (List.range n).map ((fun a => F (a + 1)) a) := by
      funext a; rfl
    rw [hcomp]
    exact ih (fun a => F (a + 1)) m' n j (by omega) hjn

lemma length_flatten_map_range {α : Type*} (F : ℕ → ℕ → α) (m n : ℕ) :
    ((((List.range m).map fun a => (List.range n).map (F a))).flatten).length = m * n := by
  rw [List.length_flatten, List.map_map]
  have hcomp : (List.length ∘ fun a => (List.range n).map (F a)) = fun _ => n := by
    funext a; simp
  rw [hcomp, List.map_const', List.sum_replicate, List.length_range, smul_eq_mul]

lemma mapM_eq_some {α β : Type*} (F : α → Option β) (G : α → β) :
    ∀ l : List α, (∀ a ∈ l, F a = some (G a)) → l.mapM F = some (l.map G) := by
  intro l
  induction l with
  | nil => intro _; rfl
  | cons a l ih =>
    intro h
    rw [List.map_cons, List.mapM_cons, h a (by simp),
      ih fun b hb => h b (by simp [hb])]
    rfl

lemma g_eq_some (x y lamb : ℝ) (hx0 : 0 ≤ x) (hx1 : x ≤ 1) (hy0 : 0 ≤ y)
    (hy1 : y ≤ 1) :
    g x y lamb = some (f x y + lamb * hval x * hval y) := by
  unfold g
  rw [func_eq_some_of_mem x hx0 hx1, func_eq_some_of_mem y hy0 hy1]
  rfl

lemma div_mem_unit_of_lt (i n : ℕ) (h : i < n) :
    0 ≤ (i : ℝ) / n ∧ (i : ℝ) / n ≤ 1 := by
  have hn : (0 : ℝ) < n := by
    have : 0 < n := by omega
    exact_mod_cast this
  constructor
  · positivity
  · rw [div_le_one hn]
    exact_mod_cast Nat.le_of_lt h

lemma discretized_g_eq (lamb : ℝ) (n : ℕ) :
    discretized_g lamb n =
      some (((List.range n).map fun (i : ℕ) => (List.range n).map fun (j : ℕ) =>
        f ((i : ℝ) / n) ((j : ℝ) / n) +
          lamb * hval ((i : ℝ) / n) * hval ((j : ℝ) / n)).flatten) := by
  have inner : ∀ i ∈ List.range n,
      ((List.range n).mapM fun (j : ℕ) => g ((i : ℝ) / n) ((j : ℝ) / n) lamb) =
        some ((List.range n).map fun (j : ℕ) =>
          f ((i : ℝ) / n) ((j : ℝ) / n) +
            lamb * hval ((i : ℝ) / n) * hval ((j : ℝ) / n)) := by
    intro i hi
    apply mapM_eq_some
    intro j hj
    obtain ⟨hi0, hi1⟩ := div_mem_unit_of_lt i n (List.mem_range.mp hi)
    obtain ⟨hj0, hj1⟩ := div_mem_unit_of_lt j n (List.mem_range.mp hj)
    exact g_eq_some _ _ lamb hi0 hi1 hj0 hj1
  unfold discretized_g
  rw [mapM_eq_some _
    (fun (i : ℕ) => (List.range n).map fun (j : ℕ) =>
      f ((i : ℝ) / n) ((j : ℝ) / n) +
        lamb * hval ((i : ℝ) / n) * hval ((j : ℝ) / n)) _ inner]
  rfl

/-- C4: the discretized forcing vectors have length exactly `n²`, the component
at flattened index `i·n + j` is the continuous function evaluated at
`(i/n, j/n)`, and this flattening agrees with the matrix index convention
`point_of_index`. -/
theorem discretization_shape_and_values (n : ℕ) (hn : 1 ≤ n) (lamb : ℝ)
    (i j : ℕ) (hi : i < n) (hj : j < n) :
    (discretized_f n).length = n ^ 2 ∧
      Option.map List.length (discretized_g lamb n) = some (n ^ 2) ∧
      (discretized_f n)[i * n + j]? = some (f ((i : ℝ) / n) ((j : ℝ) / n)) ∧
      (discretized_g lamb n).bind (fun v => v[i * n + j]?) =
        g ((i : ℝ) / n) ((j : ℝ) / n) lamb ∧
      point_of_index (i * n + j) n = ((i : ℚ) / n, (j : ℚ) / n) := by
  refine ⟨?_, ?_, ?_, ?_, ?_⟩
  · unfold discretized_f
    rw [length_flatten_map_range, pow_two]
  · rw [discretized_g_eq, Option.map_some', length_flatten_map_range, pow_two]
  · unfold discretized_f
    exact flatten_map_range_get i (fun a b => f ((a : ℝ) / n) ((b : ℝ) / n)) n n j hi hj
  · rw [discretized_g_eq, Option.some_bind',
      flatten_map_range_get i
        (fun a b => f ((a : ℝ) / n) ((b : ℝ) / n) +
          lamb * hval ((a : ℝ) / n) * hval ((b : ℝ) / n)) n n j hi hj]
    obtain ⟨hi0, hi1⟩ := div_mem_unit_of_lt i n hi
    obtain ⟨hj0, hj1⟩ := div_mem_unit_of_lt j n hj
    rw [g_eq_some _ _ lamb hi0 hi1 hj0 hj1]
  · have hrw : i * n + j = j + i * n := by ring
    unfold point_of_index
    rw [hrw, Nat.add_mul_div_right _ _ (by omega : 0 < n), Nat.div_eq_of_lt hj,
      Nat.zero_add, Nat.add_mul_mod_self_right, Nat.mod_eq_of_lt hj]

/-- Witness for C4 at `n = 2`, `λ = 0`, `i = 1`, `j = 0`. -/
theorem discretization_shape_and_values_witness :
    (discretized_f 2).length = 2 ^ 2 ∧
      Option.map List.length (discretized_g 0 2) = some (2 ^ 2) ∧
      (discretized_f 2)[1 * 2 + 0]? = some (f ((1 : ℝ) / 2) ((0 : ℝ) / 2)) ∧
      (discretized_g 0 2).bind (fun v => v[1 * 2 + 0]?) =
        g ((1 : ℝ) / 2) ((0 : ℝ) / 2) 0 ∧
      point_of_index (1 * 2 + 0) 2 = ((1 : ℚ) / 2, (0 : ℚ) / 2) := by
  have h := discretization_shape_and_values 2 (by decide) 0 1 0 (by decide) (by decide)
  simpa using h

/-- C9: `discretized_g` is total: it never reaches the error branch of the
piecewise function, because every argument has the form `i/n` with
`0 ≤ i < n` and hence lies in `[0, 1)`. -/
theorem discretized_g_total (n : ℕ) (hn : 1 ≤ n) (lamb : ℝ) :
    (discretized_g lamb n).isSome := by
  rw [discretized_g_eq]
  rfl

/-- Witness for C9 at `n = 4`, `λ = 1`. -/
theorem discretized_g_total_witness : (discretized_g 1 4).isSome :=
  discretized_g_total 4 (by decide) 1

/-- C6: for `n ≥ 1` the index-to-point map is injective on `[0, n²)`, every grid
point `(a/n, b/n)` is hit by the index `a·n + b`, and every index lands on the
grid. -/
theorem point_of_index_grid (n i j a b : ℕ) (hn : 1 ≤ n) (hi : i < n ^ 2)
    (hj : j < n ^ 2) (hij : point_of_index i n = point_of_index j n)
    (ha : a < n) (hb : b < n) :
    i = j ∧
      (a * n + b < n ^ 2 ∧
        point_of_index (a * n + b) n = ((a : ℚ) / n, (b : ℚ) / n)) ∧
      (i / n < n ∧ i % n < n ∧
        point_of_index i n = (((i / n : ℕ) : ℚ) / n, ((i % n : ℕ) : ℚ) / n)) := by
  have hn0 : 0 < n := by omega
  have hnQ : ((n : ℚ)) ≠ 0 := Nat.cast_ne_zero.mpr (by omega)
  refine ⟨?_, ⟨?_, ?_⟩, ?_, ?_, rfl⟩
  · rw [Prod.ext_iff] at hij
    obtain ⟨h1, h2⟩ := hij
    unfold point_of_index at h1 h2
    simp only at h1 h2
    have e1 : i / n = j / n := by
      have h1' := congrArg (fun t : ℚ => t * (n : ℚ)) h1
      simp only at h1'
      rw [div_mul_cancel₀ _ hnQ, div_mul_cancel₀ _ hnQ] at h1'
      exact_mod_cast h1'
    have e2 : i % n = j % n := by
      have h2' := congrArg (fun t : ℚ => t * (n : ℚ)) h2
      simp only at h2'
      rw [div_mul_cancel₀ _ hnQ, div_mul_cancel₀ _ hnQ] at h2'
      exact_mod_cast h2'
    conv_lhs => rw [← Nat.div_add_mod i n, e1, e2]
    exact Nat.div_add_mod j n
  · calc a * n + b < a * n + n := by omega
      _ = (a + 1) * n := by ring
      _ ≤ n * n := Nat.mul_le_mul_right n (by omega)
      _ = n ^ 2 := (pow_two n).symm
  · unfold point_of_index
    rw [show a * n + b = b + a * n from by ring,
      Nat.add_mul_div_right _ _ hn0, Nat.div_eq_of_lt hb, Nat.zero_add,
      Nat.add_mul_mod_self_right, Nat.mod_eq_of_lt hb]
  · exact (Nat.div_lt_iff_lt_mul hn0).mpr (by rw [← pow_two]; exact hi)
  · exact Nat.mod_lt _ hn0

/-- Witness for C6 at `n = 2`, `i = j = 3`, grid point `(1/2, 1/2)`. -/
theorem point_of_index_grid_witness :
    (3 : ℕ) = 3 ∧
      (1 * 2 + 1 < 2 ^ 2 ∧
        point_of_index (1 * 2 + 1) 2 = ((1 : ℚ) / 2, (1 : ℚ) / 2)) ∧
      (3 / 2 < 2 ∧ 3 % 2 < 2 ∧
        point_of_index 3 2 = (((3 / 2 : ℕ) : ℚ) / 2, ((3 % 2 : ℕ) : ℚ) / 2)) :=
  point_of_index_grid 2 3 3 1 1 (by decide) (by decide) (by decide) rfl
    (by decide) (by decide)

lemma wrap_one_sub (d : ℚ) (h0 : 0 ≤ d) (h1 : d ≤ 1) : wrap (1 - d) = wrap d := by
  unfold wrap
  split_ifs <;> push_neg at * <;> linarith

lemma wrapped_shift_aux (n u v c : ℕ) (hu : u < n) (hv : v < n)
    (huA : u + c < n) (hvA : n ≤ v + c) :
    wrap |(((u + c) % n : ℕ) : ℚ) / n - (((v + c) % n : ℕ) : ℚ) / n| =
      wrap |(u : ℚ) / n - (v : ℚ) / n| := by
  have hn0 : 0 < n := by omega
  have hnQ : (0 : ℚ) < n := by exact_mod_cast hn0
  have h1 : (u + c) % n = u + c := Nat.mod_eq_of_lt huA
  have h2 : (v + c) % n = v + c - n := by
    rw [Nat.mod_eq_sub_mod hvA, Nat.mod_eq_of_lt (by omega)]
  have hvu : u < v := by omega
  rw [h1, h2, Nat.cast_sub hvA]
  have e1 : ((u + c : ℕ) : ℚ) / n - (((v + c : ℕ) : ℚ) - n) / n =
      1 - ((v : ℚ) - u) / n := by
    field_simp
    ring
  have hvn : ((v : ℚ) - u) / n ≤ 1 := by
    rw [div_le_one hnQ]
    have : (v : ℚ) ≤ n := by exact_mod_cast Nat.le_of_lt hv
    have : (0 : ℚ) ≤ u := by positivity
    linarith
  have hvn0 : 0 ≤ ((v : ℚ) - u) / n := by
    apply div_nonneg _ (le_of_lt hnQ)
    have : (u : ℚ) ≤ v := by exact_mod_cast Nat.le_of_lt hvu
    linarith
  have e2 : |((u + c : ℕ) : ℚ) / n - (((v + c : ℕ) : ℚ) - n) / n| =
      1 - ((v : ℚ) - u) / n := by
    rw [e1, abs_of_nonneg (by linarith)]
  have e3 : |(u : ℚ) / n - (v : ℚ) / n| = ((v : ℚ) - u) / n := by
    rw [abs_of_nonpos, neg_sub]
    · ring
    · have huv : (u : ℚ) ≤ v := by exact_mod_cast Nat.le_of_lt hvu
      exact sub_nonpos.mpr ((div_le_div_iff_of_pos_right hnQ).mpr huv)
  rw [e2, e3]
  exact wrap_one_sub _ hvn0 hvn

lemma wrapped_coord_shift (n u v a : ℕ) (hn : 1 ≤ n) (hu : u < n) (hv : v < n) :
    wrap |(((u + a) % n : ℕ) : ℚ) / n - (((v + a) % n : ℕ) : ℚ) / n| =
      wrap |(u : ℚ) / n - (v : ℚ) / n| := by
  have hn0 : 0 < n := by omega
  have hu' : (u + a) % n = (u + a % n) % n := by
    conv_lhs => rw [Nat.add_mod, Nat.mod_eq_of_lt hu]
  have hv' : (v + a) % n = (v + a % n) % n := by
    conv_lhs => rw [Nat.add_mod, Nat.mod_eq_of_lt hv]
  rw [hu', hv']
  rcases lt_or_le (u + a % n) n with h1 | h1 <;>
    rcases lt_or_le (v + a % n) n with h2 | h2
  · rw [Nat.mod_eq_of_lt h1, Nat.mod_eq_of_lt h2]
    congr 1
    push_cast
    ring
  · exact wrapped_shift_aux n u v (a % n) hu hv h1 h2
  · rw [abs_sub_comm, abs_sub_comm ((u : ℚ) / n)]
    exact wrapped_shift_aux n v u (a % n) hv hu h2 h1
  · have e1 : (u + a % n) % n = u + a % n - n := by
      rw [Nat.mod_eq_sub_mod h1,
        Nat.mod_eq_of_lt (by have := Nat.mod_lt a hn0; omega)]
    have e2 : (v + a % n) % n = v + a % n - n := by
      rw [Nat.mod_eq_sub_mod h2,
        Nat.mod_eq_of_lt (by have := Nat.mod_lt a hn0; omega)]
    rw [e1, e2]
    congr 1
    rw [Nat.cast_sub h1, Nat.cast_sub h2]
    push_cast
    ring

/-- Cyclic shift of a flattened lattice index: the row `i div n` shifts by `a`
and the column `i mod n` shifts by `b`, both modulo `n`. -/
def shift_index (n a b i : ℕ) : ℕ := ((i / n + a) % n) * n + ((i % n + b) % n)

lemma shift_index_div (n a b i : ℕ) (hn : 1 ≤ n) :
    shift_index n a b i / n = (i / n + a) % n := by
  unfold shift_index
  rw [show ((i / n + a) % n) * n + ((i % n + b) % n) =
      ((i % n + b) % n) + ((i / n + a) % n) * n from by ring,
    Nat.add_mul_div_right _ _ (by omega : 0 < n),
    Nat.div_eq_of_lt (Nat.mod_lt _ (by omega)), Nat.zero_add]

lemma shift_index_mod (n a b i : ℕ) (hn : 1 ≤ n) :
    shift_index n a b i % n = (i % n + b) % n := by
  unfold shift_index
  rw [show ((i / n + a) % n) * n + ((i % n + b) % n) =
      ((i % n + b) % n) + ((i / n + a) % n) * n from by ring,
    Nat.add_mul_mod_self_right, Nat.mod_eq_of_lt (Nat.mod_lt _ (by omega))]

lemma toroidal_distance_shift (n a b i j : ℕ) (hn : 1 ≤ n) (hi : i < n ^ 2)
    (hj : j < n ^ 2) :
    toroidal_distance (point_of_index (shift_index n a b i) n)
        (point_of_index (shift_index n a b j) n) =
      toroidal_distance (point_of_index i n) (point_of_index j n) := by
  have hn0 : 0 < n := by omega
  have hdi : i / n < n := (Nat.div_lt_iff_lt_mul hn0).mpr (by rw [← pow_two]; exact hi)
  have hdj : j / n < n := (Nat.div_lt_iff_lt_mul hn0).mpr (by rw [← pow_two]; exact hj)
  unfold toroidal_distance point_of_index
  dsimp only
  rw [shift_index_div n a b i hn, shift_index_div n a b j hn,
    shift_index_mod n a b i hn, shift_index_mod n a b j hn]
  congr 1
  · exact wrapped_coord_shift n (i / n) (j / n) a hn hdi hdj
  · exact wrapped_coord_shift n (i % n) (j % n) b hn (Nat.mod_lt _ hn0) (Nat.mod_lt _ hn0)

/-- C10: the kernel part of the operator is translation-invariant on the torus:
`matrix_entry` is unchanged when both flattened indices undergo the same cyclic
lattice shift `(a, b)`. -/
theorem matrix_entry_shift_invariant (n a b i j : ℕ) (K : ℝ → ℝ) (hn : 1 ≤ n)
    (hi : i < n ^ 2) (hj : j < n ^ 2) :
    matrix_entry (shift_index n a b i) (shift_index n a b j) n K =
      matrix_entry i j n K := by
  rw [matrix_entry_eq, matrix_entry_eq,
    toroidal_distance_shift n a b i j hn hi hj]

/-- Witness for C10 at `n = 2`, shift `(1, 1)`, indices `0` and `1`, identity
kernel. -/
theorem matrix_entry_shift_invariant_witness :
    matrix_entry (shift_index 2 1 1 0) (shift_index 2 1 1 1) 2 (fun x => x) =
      matrix_entry 0 1 2 (fun x => x) :=
  matrix_entry_shift_invariant 2 1 1 0 1 (fun x => x) (by decide) (by decide)
    (by decide)

end IntegralConvolve
